import Mathlib

/-!
Shallow embedding of `cpp17_tuple.cpp` — the `sized_tuple` keyword-argument
tuple — and proofs about its construction, access and mutation behaviour.

The C++ container `sized_tuple<NDim, T1, ..., TN>` is a chain of levels, one
per declared slot type.  The level holding slot `k` has
`s_index = NDim - sizeof...(Types) = k`, and the recursion anchor
`sized_tuple<NDim>` (with `s_index = NDim + 1`) sits at the bottom of the
chain.  Slot values are modelled uniformly by a type parameter `α`; a
container state is the list of slot values ordered by `s_index`, slot 1
first (the slot of the outermost, most-derived level).
-/

namespace STuple

variable {α : Type}

/-- Embeds `position<Index, Type>`: a positional initializer pairing a
compile-time slot index with (a reference to) a value. -/
structure position (α : Type) where
  index : Nat
  value : α
  deriving DecidableEq, Repr

/-- Embeds `initialize<N, First>(x, rest...)` from `cpp17_tuple.cpp`: scan
the positional arguments left to right; the first one whose `index` equals
`N` has its value moved out and returned (`return std::move(x.value)`).
When no argument matches, the zero-argument recursion anchor returns the
default-constructed `First{}`, modelled by the parameter `d`. -/
def initSelect (N : Nat) (d : α) : List (position α) → α
  | [] => d
  | x :: rest => if x.index = N then x.value else initSelect N d rest

/-- Embeds the constructor chain of `sized_tuple<NDim, First, Types...>`:
the level whose `s_index` is `k` initializes its `m_value` with
`initialize<s_index, First>(args...)`; `k` counts up from the outermost
level's `s_index`, and `defaults` lists each remaining slot's
default-constructed value `First{}`. -/
def constructFrom : Nat → List α → List (position α) → List α
  | _, [], _ => []
  | k, d :: rest, args => initSelect k d args :: constructFrom (k + 1) rest args

/-- Construction of the full container: the outermost level has
`s_index = 1`, so every slot `k = 1..N` holds
`initialize<k, T_k>(args...)`. -/
def construct (defaults : List α) (args : List (position α)) : List α :=
  constructFrom 1 defaults args

/-- Embeds `get<Idx>` walking the chain: each level compares `Idx` with its
`s_index` (`if constexpr (Idx == s_index) return std::move(m_value)`)
and otherwise recurses into `super`.  `some v` means a level matched and its
`m_value` is returned; `none` models falling through to the recursion
anchor `sized_tuple<NDim>::get`, which returns the `int` literal `0` rather
than any slot's value. -/
def getFrom : Nat → List α → Nat → Option α
  | _, [], _ => none
  | k, v :: rest, idx => if idx = k then some v else getFrom (k + 1) rest idx

/-- `t.get<idx>()` on the full container (outermost `s_index = 1`). -/
def get (t : List α) (idx : Nat) : Option α :=
  getFrom 1 t idx

/-- Embeds `set<Idx>`'s assignment
`access<sized_tuple, Idx>::type::m_value = std::move(arg_)`: the `access`
metafunction strips `Idx - 1` `super`s from the most-derived level, so the
level with `s_index = Idx` has its `m_value` replaced; every other level is
untouched.  An index matching no level leaves the state unchanged (in C++
that instantiation does not compile at all, see `accessType` below). -/
def setFrom : Nat → List α → Nat → α → List α
  | _, [], _, _ => []
  | k, w :: rest, idx, v =>
    if idx = k then v :: rest else w :: setFrom (k + 1) rest idx v

/-- `t.set<idx>(v)` on the full container (outermost `s_index = 1`). -/
def set (t : List α) (idx : Nat) (v : α) : List α :=
  setFrom 1 t idx v

/-- Concrete slot values for the scenario of `main` in `cpp17_tuple.cpp`:
the container `tuple<bool, char, double, int>`.  The `double` slot only
stores and compares the literal written in the source, so it is modelled
exactly by a rational. -/
inductive CVal : Type where
  | b (x : Bool)
  | c (x : Char)
  | d (x : Rat)
  | i (x : Int)
  deriving DecidableEq, Repr

/-- Default-constructed values of the declared slot types of
`tuple<bool, char, double, int>`: `bool()`, `char()`, `double()`, `int()`. -/
def defaults4 : List CVal :=
  [CVal.b false, CVal.c (Char.ofNat 0), CVal.d 0, CVal.i 0]

/-- The positional initializers of `ctuple` in `main`:
`pos<1>(false), pos<3>(3.14), pos<2>('m')`. -/
def args9 : List (position CVal) :=
  [⟨1, CVal.b false⟩, ⟨3, CVal.d 3.14⟩, ⟨2, CVal.c 'm'⟩]

/-- C9: constructing `tuple<bool, char, double, int>` from
`pos<1>(false), pos<3>(3.14), pos<2>('m')` yields slot 1 = `false`,
slot 2 = `'m'`, slot 3 = `3.14`, slot 4 = `int()` = `0`. -/
theorem claim9_main_scenario :
    construct defaults4 args9 =
      [CVal.b false, CVal.c 'm', CVal.d 3.14, CVal.i 0] := by
  norm_num [construct, constructFrom, initSelect, defaults4, args9]

/-- A second permutation of the same initializers, used to check
order-independence: `pos<3>(3.14), pos<1>(false), pos<2>('m')`. -/
def args9swap : List (position CVal) :=
  [⟨3, CVal.d 3.14⟩, ⟨1, CVal.b false⟩, ⟨2, CVal.c 'm'⟩]

lemma initSelect_eq_of_mem (k : Nat) (d : α) {args : List (position α)}
    (hnd : (args.map position.index).Nodup) {x : position α}
    (hx : x ∈ args) (hk : x.index = k) :
    initSelect k d args = x.value := by
  induction args with
  | nil => cases hx
  | cons y rest ih =>
    rw [List.map_cons, List.nodup_cons] at hnd
    by_cases hy : y.index = k
    · have hxy : x = y := by
        rcases List.mem_cons.mp hx with h | h
        · exact h
        · have : y.index ∈ List.map position.index rest := by
            rw [hy, ← hk]
            exact List.mem_map_of_mem position.index h
          exact absurd this hnd.1
      simp [initSelect, hy, hxy]
    · have hx' : x ∈ rest := by
        rcases List.mem_cons.mp hx with h | h
        · exact absurd (h ▸ hk) hy
        · exact h
      simp only [initSelect, if_neg hy]
      exact ih hnd.2 hx'

lemma initSelect_eq_default (k : Nat) (d : α) {args : List (position α)}
    (h : k ∉ args.map position.index) :
    initSelect k d args = d := by
  induction args with
  | nil => rfl
  | cons y rest ih =>
    rw [List.map_cons, List.mem_cons] at h
    push_neg at h
    simp only [initSelect, if_neg (Ne.symm h.1)]
    exact ih h.2

lemma initSelect_append (k : Nat) (d : α) (pre post : List (position α)) (v : α)
    (hpre : ∀ p ∈ pre, position.index p ≠ k) :
    initSelect k d (pre ++ ⟨k, v⟩ :: post) = v := by
  induction pre with
  | nil => simp [initSelect]
  | cons y rest ih =>
    simp only [List.cons_append, initSelect,
      if_neg (hpre y (List.mem_cons_self y rest))]
    exact ih fun p hp => hpre p (List.mem_cons_of_mem y hp)

lemma getFrom_constructFrom (args : List (position α)) (defaults : List α) :
    ∀ (m k : Nat), m ≤ k → k < m + defaults.length →
      getFrom m (constructFrom m defaults args) k
        = (defaults[k - m]?).map fun d => initSelect k d args := by
  induction defaults with
  | nil =>
    intro m k h1 h2
    exact absurd (by simpa using h2) (Nat.not_lt.mpr h1)
  | cons d rest ih =>
    intro m k h1 h2
    by_cases hk : k = m
    · subst hk
      simp [constructFrom, getFrom]
    · have hs : k - m = (k - (m + 1)) + 1 := by omega
      simp only [constructFrom, getFrom, if_neg hk, hs, List.getElem?_cons_succ]
      exact ih (m + 1) k (by omega) (by simp only [List.length_cons] at h2; omega)

lemma get_construct (defaults : List α) (args : List (position α)) (k : Nat)
    (h1 : 1 ≤ k) (h2 : k ≤ defaults.length) :
    get (construct defaults args) k
      = some (initSelect k (defaults.get ⟨k - 1, by omega⟩) args) := by
  rw [get, construct,
    getFrom_constructFrom args defaults 1 k h1 (by omega),
    List.getElem?_eq_getElem (by omega : k - 1 < defaults.length)]
  simp [List.get_eq_getElem]

/-- C1: after constructing an `N`-slot container from positional
initializers with pairwise-distinct indices, a slot targeted by an
initializer holds that initializer's value, and a slot targeted by none
holds the default-constructed value of its declared type. -/
theorem claim1_construct_values (defaults : List α) (args : List (position α))
    (hnd : (args.map position.index).Nodup) (k : Nat) (v : α)
    (h1 : 1 ≤ k) (h2 : k ≤ defaults.length) :
    (position.mk k v ∈ args → get (construct defaults args) k = some v) ∧
    (k ∉ args.map position.index →
      get (construct defaults args) k = defaults[k - 1]?) := by
  rw [get_construct defaults args k h1 h2]
  constructor
  · intro hv
    rw [initSelect_eq_of_mem k _ hnd hv rfl]
  · intro hnone
    rw [initSelect_eq_default k _ hnone,
      List.getElem?_eq_getElem (by omega : k - 1 < defaults.length)]
    simp [List.get_eq_getElem]

theorem claim1_witness :
    get (construct defaults4 args9) 3 = some (CVal.d 3.14) :=
  (claim1_construct_values defaults4 args9 (by decide) 3 (CVal.d 3.14)
    (by decide) (by decide)).1 (by simp [args9])

lemma initSelect_perm (k : Nat) (d : α) {args args' : List (position α)}
    (hnd : (args.map position.index).Nodup) (hp : args.Perm args') :
    initSelect k d args = initSelect k d args' := by
  by_cases hk : k ∈ args.map position.index
  · obtain ⟨x, hx, hxk⟩ := List.mem_map.mp hk
    rw [initSelect_eq_of_mem k d hnd hx hxk,
      initSelect_eq_of_mem k d ((hp.map position.index).nodup_iff.mp hnd)
        (hp.mem_iff.mp hx) hxk]
  · rw [initSelect_eq_default k d hk,
      initSelect_eq_default k d
        (fun hc => hk ((hp.map position.index).mem_iff.mpr hc))]

lemma constructFrom_perm {args args' : List (position α)}
    (hnd : (args.map position.index).Nodup) (hp : args.Perm args')
    (defaults : List α) : ∀ (m : Nat),
    constructFrom m defaults args = constructFrom m defaults args' := by
  induction defaults with
  | nil => intro m; rfl
  | cons d rest ih =>
    intro m
    simp only [constructFrom]
    rw [initSelect_perm m d hnd hp, ih (m + 1)]

/-- C2: constructing from any permutation of a list of positional
initializers with pairwise-distinct indices yields an identical
container. -/
theorem claim2_order_independence (defaults : List α)
    (args args' : List (position α))
    (hnd : (args.map position.index).Nodup) (hp : args.Perm args') :
    construct defaults args = construct defaults args' :=
  constructFrom_perm hnd hp defaults 1

theorem claim2_witness :
    construct defaults4 args9 = construct defaults4 args9swap :=
  claim2_order_independence defaults4 args9 args9swap (by decide)
    (List.Perm.swap _ _ _)

/-- C5: when several positional initializers target the same slot, the
first one in argument order wins: the slot receives its value and the
later duplicates are ignored. -/
theorem claim5_first_match_wins (defaults : List α)
    (pre post : List (position α)) (k : Nat) (v : α)
    (hpre : ∀ p ∈ pre, position.index p ≠ k)
    (h1 : 1 ≤ k) (h2 : k ≤ defaults.length) :
    get (construct defaults (pre ++ ⟨k, v⟩ :: post)) k = some v := by
  rw [get_construct defaults _ k h1 h2, initSelect_append k _ pre post v hpre]

theorem claim5_witness :
    get (construct defaults4
      [⟨1, CVal.b true⟩, ⟨2, CVal.c 'a'⟩, ⟨2, CVal.c 'z'⟩]) 2
      = some (CVal.c 'a') :=
  claim5_first_match_wins defaults4 [⟨1, CVal.b true⟩] [⟨2, CVal.c 'z'⟩]
    2 (CVal.c 'a') (by decide) (by decide) (by decide)

lemma getFrom_setFrom_self (t : List α) : ∀ (m idx : Nat) (v : α),
    m ≤ idx → idx < m + t.length →
    getFrom m (setFrom m t idx v) idx = some v := by
  induction t with
  | nil =>
    intro m idx v h1 h2
    exact absurd (by simpa using h2) (Nat.not_lt.mpr h1)
  | cons w rest ih =>
    intro m idx v h1 h2
    by_cases hm : idx = m
    · subst hm
      simp [setFrom, getFrom]
    · simp only [setFrom, getFrom, if_neg hm]
      exact ih (m + 1) idx v (by omega)
        (by simp only [List.length_cons] at h2; omega)

lemma getFrom_setFrom_other (t : List α) : ∀ (m idx j : Nat) (v : α),
    j ≠ idx → getFrom m (setFrom m t idx v) j = getFrom m t j := by
  induction t with
  | nil => intro m idx j v _; rfl
  | cons w rest ih =>
    intro m idx j v h
    by_cases hm : idx = m
    · subst hm
      simp only [setFrom, if_pos rfl, getFrom, if_neg h]
    · simp only [setFrom, if_neg hm, getFrom]
      by_cases hj : j = m
      · simp [hj]
      · simp only [if_neg hj]
        exact ih (m + 1) idx j v h

lemma setFrom_of_getFrom (t : List α) : ∀ (m idx : Nat) (p : α),
    getFrom m t idx = some p → setFrom m t idx p = t := by
  induction t with
  | nil => intro m idx p h; cases h
  | cons w rest ih =>
    intro m idx p h
    by_cases hm : idx = m
    · subst hm
      simp [getFrom] at h
      simp [setFrom, h]
    · simp only [getFrom, if_neg hm] at h
      simp only [setFrom, if_neg hm]
      rw [ih (m + 1) idx p h]

/-- C3: on any constructed container, `set<i>(v)` followed by `get<i>()`
yields `v` — the slot holds the last value installed on it. -/
theorem claim3_set_then_get (t : List α) (i : Nat) (v : α)
    (h1 : 1 ≤ i) (h2 : i ≤ t.length) :
    get (set t i v) i = some v :=
  getFrom_setFrom_self t 1 i v h1 (by omega)

theorem claim3_witness :
    get (set [CVal.b false, CVal.c 'm', CVal.i 4] 3 (CVal.i 42)) 3
      = some (CVal.i 42) :=
  claim3_set_then_get [CVal.b false, CVal.c 'm', CVal.i 4] 3 (CVal.i 42)
    (by decide) (by decide)

/-- C7: `set<i>(v)` changes only slot `i`: every slot `j ≠ i` reads the
same value after the call as before it. -/
theorem claim7_set_frame (t : List α) (i j : Nat) (v : α) (h : j ≠ i) :
    get (set t i v) j = get t j :=
  getFrom_setFrom_other t 1 i j v h

theorem claim7_witness :
    get (set [CVal.b false, CVal.c 'm', CVal.i 4] 3 (CVal.i 42)) 2
      = get [CVal.b false, CVal.c 'm', CVal.i 4] 2 :=
  claim7_set_frame [CVal.b false, CVal.c 'm', CVal.i 4] 3 2 (CVal.i 42)
    (by decide)

/-- Models `std::unique_ptr<std::string>`, the move-only element type used
by `tuple2` and `tuple3` in `main`: `contents = none` is the null /
moved-from state. -/
structure MovePtr where
  contents : Option String
  deriving DecidableEq, Repr

/-- The kind of reference through which a `unique_ptr`-like value is
accessed by an initialization or assignment. -/
inductive RefKind : Type where
  | mutRef
  | constRef
  deriving DecidableEq, Repr

/-- Models C++ overload resolution when a `unique_ptr`-like value is
consumed through a reference of the given kind.  Through a non-const
reference (`mutRef`), `std::move` selects the move constructor/assignment,
which transfers the pointee and leaves the source null.  Through a const
reference (`constRef`) — as produced by the const member function `get`,
whose `std::move(m_value)` has type `const First&&` — no move is possible
(`unique_ptr&&` cannot bind to a const source), so the source can only be
observed and is left untouched.  Returns (value received, source after). -/
def moveOut : RefKind → MovePtr → MovePtr × MovePtr
  | RefKind.mutRef, p => (⟨p.contents⟩, ⟨none⟩)
  | RefKind.constRef, p => (⟨p.contents⟩, p)

/-- Embeds `t.set<idx>(p)` for an lvalue `unique_ptr` argument `p`, as in
`tuple2.set<3>(p)` in `main`: `set`'s forwarding reference binds `p` by
non-const lvalue reference and the body runs
`m_value = std::move(arg_)` — a `mutRef` extraction.  Returns the
container and the caller's object after the call. -/
def setCall (t : List MovePtr) (idx : Nat) (p : MovePtr) :
    List MovePtr × MovePtr :=
  (set t idx (moveOut RefKind.mutRef p).1, (moveOut RefKind.mutRef p).2)

/-- Embeds one call `t.get<idx>()` together with the caller's observation
of the result: `get` is a const member function, so the slot is reached
through a `constRef` access and the observed value is returned with the
container afterwards.  When `idx` matches no level, the recursion anchor's
`get` runs and no slot is touched. -/
def getCall (t : List MovePtr) (idx : Nat) :
    Option MovePtr × List MovePtr :=
  match get t idx with
  | none => (none, t)
  | some p => (some (moveOut RefKind.constRef p).1,
      set t idx (moveOut RefKind.constRef p).2)

/-- `n` successive calls of `t.get<idx>()` with no intervening `set`:
the list of observed results and the final container state. -/
def readN (t : List MovePtr) (idx : Nat) : Nat → List (Option MovePtr) × List MovePtr
  | 0 => ([], t)
  | n + 1 =>
    let r := getCall t idx
    let rest := readN r.2 idx n
    (r.1 :: rest.1, rest.2)

/-- C6 fails on the code: after `tuple2.set<3>(p)` with the lvalue
`p = unique_ptr("black dog")` (main, lines 129–130), the caller's object
no longer holds its value — `m_value = std::move(arg_)` moves from it. -/
theorem claim6_counterexample :
    (setCall [MovePtr.mk (some "pink pig")] 1
        (MovePtr.mk (some "black dog"))).2
      ≠ MovePtr.mk (some "black dog") := by
  decide

/-- C6 (amended): an lvalue handed to `set` is not copied but is moved
from: the targeted slot receives the caller's value and the caller's
object is left null/moved-from. -/
theorem claim6_amended_lvalue_moved (t : List MovePtr) (idx : Nat)
    (p : MovePtr) (h1 : 1 ≤ idx) (h2 : idx ≤ t.length) :
    get (setCall t idx p).1 idx = some p ∧
    (setCall t idx p).2 = MovePtr.mk none :=
  ⟨getFrom_setFrom_self t 1 idx p h1 (by omega), rfl⟩

theorem claim6_witness :
    get (setCall [MovePtr.mk (some "pink pig")] 1
        (MovePtr.mk (some "black dog"))).1 1
      = some (MovePtr.mk (some "black dog")) ∧
    (setCall [MovePtr.mk (some "pink pig")] 1
        (MovePtr.mk (some "black dog"))).2 = MovePtr.mk none :=
  claim6_amended_lvalue_moved [MovePtr.mk (some "pink pig")] 1
    (MovePtr.mk (some "black dog")) (by decide) (by decide)

/-- C10: `get` is read-only.  Any number of successive `get<idx>` calls
with no intervening `set` return the same value and leave every slot
unchanged: the `std::move(m_value)` in `get`'s body is an rvalue cast of a
const member, from which no move can actually occur. -/
theorem claim10_get_read_only (t : List MovePtr) (idx n : Nat) :
    readN t idx n = (List.replicate n (get t idx), t) := by
  induction n with
  | zero => rfl
  | succ n ih =>
    match hg : get t idx with
    | none =>
      simp only [readN, getCall, hg, ih, List.replicate_succ]
    | some p =>
      have hset : set t idx p = t := setFrom_of_getFrom t 1 idx p hg
      simp only [readN, getCall, hg, moveOut]
      rw [show MovePtr.mk p.contents = p from rfl, hset, ih, hg,
        List.replicate_succ]

/-- Embeds instantiation of the `access<T, Idx>` metafunction: the first
argument counts the generic levels of the chain `T` (the anchor
`sized_tuple<NDim>` sits below them).  `access<T, 1> = T` resolves;
otherwise `access<T, Idx> = access<T::super, Idx - 1>`, and the anchor has
no `super`; an `Idx ≤ 0` (modelled by `0`) recurses without end.  `some c`
identifies the resolved type by its own remaining generic-level count;
`none` means the instantiation is ill-formed — a compile-time error. -/
def accessType : Nat → Nat → Option Nat
  | _, 0 => none
  | c, 1 => some c
  | 0, _ + 2 => none
  | c + 1, i + 2 => accessType c (i + 1)

/-- Whether a resolved `access` result names a type that has the member
`m_value`: only a generic level (at least one generic level remaining)
does; the anchor (`some 0`) does not, and `none` is no type at all. -/
def hasMValue : Option Nat → Bool
  | some (_ + 1) => true
  | _ => false

/-- Whether `t.set<idx>(v)` on an `N`-slot container compiles.  For
`N = 0` the container is the bare anchor, whose no-op `set` accepts every
index; for `N ≥ 1` the most-derived `set` is selected and its body names
`access<sized_tuple, Idx>::type::m_value`, which exists exactly when
`access` resolves to a generic level. -/
def setCompiles : Nat → Nat → Bool
  | 0, _ => true
  | n + 1, idx => hasMValue (accessType (n + 1) idx)

/-- Whether the instantiation of `get<idx>` compiles, starting at the
level with `s_index = k` and `n` generic levels remaining: a matching
level returns its `m_value`, otherwise the call recurses into `super`, and
the anchor's `get<Idx>` exists for every `Idx` (returning the `int`
literal `0`). -/
def getCompilesFrom : Nat → Nat → Nat → Bool
  | _, 0, _ => true
  | k, n + 1, idx => if idx = k then true else getCompilesFrom (k + 1) n idx

/-- Whether `t.get<idx>()` on an `N`-slot container compiles. -/
def getCompiles (N idx : Nat) : Bool :=
  getCompilesFrom 1 N idx

/-- Which level the instantiation of `get<idx>` resolves to: `some k` when
the level with `s_index = k` returns its `m_value`, `none` when the call
falls through every generic level to the anchor's `get`, which returns the
`int` literal `0` rather than any slot's value. -/
def getResolutionFrom : Nat → Nat → Nat → Option Nat
  | _, 0, _ => none
  | k, n + 1, idx =>
    if idx = k then some k else getResolutionFrom (k + 1) n idx

/-- The level `t.get<idx>()` resolves to on an `N`-slot container. -/
def getResolution (N idx : Nat) : Option Nat :=
  getResolutionFrom 1 N idx

lemma accessType_eq : ∀ (idx c : Nat),
    accessType c idx
      = if 1 ≤ idx ∧ idx ≤ c + 1 then some (c + 1 - idx) else none := by
  intro idx
  induction idx with
  | zero =>
    intro c
    have hc : ¬(1 ≤ 0 ∧ 0 ≤ c + 1) := by omega
    simp [accessType, hc]
  | succ i ih =>
    intro c
    cases i with
    | zero =>
      have hc : 1 ≤ 1 ∧ 1 ≤ c + 1 := by omega
      simp [accessType, hc]
    | succ j =>
      cases c with
      | zero =>
        have hc : ¬(1 ≤ j + 2 ∧ j + 2 ≤ 0 + 1) := by omega
        simp [accessType, hc]
      | succ c' =>
        have he : accessType (c' + 1) (j + 1 + 1) = accessType c' (j + 1) :=
          rfl
        rw [he, ih c']
        by_cases h : 1 ≤ j + 1 ∧ j + 1 ≤ c' + 1
        · rw [if_pos h, if_pos (by omega : 1 ≤ j + 2 ∧ j + 2 ≤ c' + 1 + 1)]
          exact congrArg some (by omega)
        · rw [if_neg h, if_neg (by omega : ¬(1 ≤ j + 2 ∧ j + 2 ≤ c' + 1 + 1))]

lemma hasMValue_some (k : Nat) : hasMValue (some k) = decide (1 ≤ k) := by
  cases k with
  | zero => rfl
  | succ k => simp [hasMValue]

lemma setCompiles_eq_true_iff (N idx : Nat) (h : 1 ≤ N) :
    setCompiles N idx = true ↔ 1 ≤ idx ∧ idx ≤ N := by
  cases N with
  | zero => omega
  | succ n =>
    rw [show setCompiles (n + 1) idx = hasMValue (accessType (n + 1) idx)
        from rfl,
      accessType_eq idx (n + 1)]
    by_cases hc : 1 ≤ idx ∧ idx ≤ n + 1 + 1
    · rw [if_pos hc, hasMValue_some]
      simp only [decide_eq_true_eq]
      omega
    · rw [if_neg hc]
      simp only [hasMValue]
      constructor
      · intro hfalse
        cases hfalse
      · intro hrange
        exact absurd ⟨hrange.1, by omega⟩ hc

lemma getCompilesFrom_eq_true : ∀ (n k idx : Nat),
    getCompilesFrom k n idx = true := by
  intro n
  induction n with
  | zero => intro k idx; rfl
  | succ n ih =>
    intro k idx
    by_cases hk : idx = k
    · simp [getCompilesFrom, hk]
    · simp only [getCompilesFrom, if_neg hk]
      exact ih (k + 1) idx

lemma getResolutionFrom_eq : ∀ (n k idx : Nat),
    getResolutionFrom k n idx
      = if k ≤ idx ∧ idx < k + n then some idx else none := by
  intro n
  induction n with
  | zero =>
    intro k idx
    have hc : ¬(k ≤ idx ∧ idx < k) := by omega
    simp [getResolutionFrom, hc]
  | succ n ih =>
    intro k idx
    by_cases hk : idx = k
    · subst hk
      have hc : idx ≤ idx ∧ idx < idx + (n + 1) := by omega
      simp [getResolutionFrom, hc]
    · simp only [getResolutionFrom, if_neg hk]
      rw [ih (k + 1) idx]
      by_cases h : k + 1 ≤ idx ∧ idx < k + 1 + n
      · rw [if_pos h, if_pos (by omega : k ≤ idx ∧ idx < k + (n + 1))]
      · rw [if_neg h, if_neg (by omega : ¬(k ≤ idx ∧ idx < k + (n + 1)))]

/-- C4 fails on the code for `get`: on a 4-slot container, `get<5>` is
not rejected at compile time — its instantiation succeeds, resolving to
the recursion anchor `sized_tuple<NDim>::get`, which returns the `int`
literal `0` at run time. -/
theorem claim4_counterexample :
    getCompiles 4 5 = true ∧ getResolution 4 5 = none := by
  decide

/-- C4 (amended): an out-of-range index is a compile-time error for `set`
on a non-empty container — `access` reaches a type with `m_value` exactly
for indices in `[1..N]` — but not for `get`: every `get<idx>`
instantiation compiles, an out-of-range one resolving to the recursion
anchor instead of any slot. -/
theorem claim4_amended_compile_errors (N idx : Nat) (h : 1 ≤ N) :
    (setCompiles N idx = true ↔ 1 ≤ idx ∧ idx ≤ N) ∧
    getCompiles N idx = true ∧
    ((getResolution N idx).isSome ↔ 1 ≤ idx ∧ idx ≤ N) := by
  refine ⟨setCompiles_eq_true_iff N idx h, getCompilesFrom_eq_true N 1 idx, ?_⟩
  rw [getResolution, getResolutionFrom_eq N 1 idx]
  by_cases hc : 1 ≤ idx ∧ idx < 1 + N
  · rw [if_pos hc]
    simp only [Option.isSome_some, true_iff]
    omega
  · rw [if_neg hc]
    simp only [Option.isSome_none, Bool.false_eq_true, false_iff]
    omega

theorem claim4_witness :
    (setCompiles 4 5 = true ↔ 1 ≤ 5 ∧ 5 ≤ 4) ∧
    getCompiles 4 5 = true ∧
    ((getResolution 4 5).isSome ↔ 1 ≤ 5 ∧ 5 ≤ 4) :=
  claim4_amended_compile_errors 4 5 (by decide)

/-- The list position of the argument whose value
`initialize<k, First>(args...)` moves out: the first argument whose index
equals `k`; `none` when no argument matches and the default-construction
branch runs instead. -/
def consumedBy (k : Nat) : List (position α) → Option Nat
  | [] => none
  | x :: rest =>
    if x.index = k then some 0 else (consumedBy k rest).map Nat.succ

/-- For each of the `N` per-slot `initialize` invocations performed by the
constructor (one per slot `k = 1..N`), the argument position whose value
that invocation moves out. -/
def movedArgs (defaults : List α) (args : List (position α)) :
    List (Option Nat) :=
  (List.range defaults.length).map fun k => consumedBy (k + 1) args

lemma consumedBy_getElem (k : Nat) : ∀ (args : List (position α)) (j : Nat),
    consumedBy k args = some j → ∃ x, args[j]? = some x ∧ x.index = k := by
  intro args
  induction args with
  | nil => intro j h; cases h
  | cons x rest ih =>
    intro j h
    by_cases hx : x.index = k
    · simp only [consumedBy, if_pos hx, Option.some.injEq] at h
      exact ⟨x, by simp [← h], hx⟩
    · simp only [consumedBy, if_neg hx, Option.map_eq_some'] at h
      obtain ⟨j', hj', rfl⟩ := h
      obtain ⟨y, hy, hyk⟩ := ih j' hj'
      exact ⟨y, by simpa using hy, hyk⟩

lemma initSelect_of_consumedBy_none (k : Nat) (d : α) :
    ∀ args : List (position α),
      consumedBy k args = none → initSelect k d args = d := by
  intro args
  induction args with
  | nil => intro _; rfl
  | cons x rest ih =>
    intro h
    by_cases hx : x.index = k
    · simp [consumedBy, hx] at h
    · simp only [consumedBy, if_neg hx, Option.map_eq_none'] at h
      simp only [initSelect, if_neg hx]
      exact ih h

lemma initSelect_of_consumedBy_some (k : Nat) (d : α) :
    ∀ (args : List (position α)) (j : Nat) (x : position α),
      consumedBy k args = some j → args[j]? = some x →
      initSelect k d args = x.value := by
  intro args
  induction args with
  | nil => intro j x h; cases h
  | cons y rest ih =>
    intro j x h hj
    by_cases hy : y.index = k
    · simp only [consumedBy, if_pos hy, Option.some.injEq] at h
      subst h
      simp only [List.getElem?_cons_zero, Option.some.injEq] at hj
      subst hj
      simp [initSelect, hy]
    · simp only [consumedBy, if_neg hy, Option.map_eq_some'] at h
      obtain ⟨j', hj', rfl⟩ := h
      simp only [List.getElem?_cons_succ] at hj
      simp only [initSelect, if_neg hy]
      exact ih j' x hj' hj

/-- C8: across the `N` per-slot selection invocations of one
construction, each positional argument's value is moved out at most once:
no two distinct invocations consume the same argument position. -/
theorem claim8_consumed_at_most_once (defaults : List α)
    (args : List (position α)) :
    (movedArgs defaults args).Pairwise fun r s =>
      ∀ j : Nat, r = some j → s ≠ some j := by
  rw [movedArgs, List.pairwise_map]
  refine (List.pairwise_lt_range _).imp ?_
  intro a b hab j ha hb
  obtain ⟨x, hx, hxa⟩ := consumedBy_getElem (a + 1) args j ha
  obtain ⟨y, hy, hyb⟩ := consumedBy_getElem (b + 1) args j hb
  rw [hx] at hy
  cases hy
  rw [hxa] at hyb
  omega

end STuple
